import Mathlib

/-!
Verification development for the Geecache distributed cache.

The Go sources are shallowly embedded: pure structure, explicit state
passing, machine integers as `Int`/`Nat` (no overflow is relevant at the
sizes involved), wall-clock instants as `Int` (nanoseconds or seconds; the
code only compares and adds durations, so the unit is irrelevant), byte
slices as `List Nat`, and `time.Now()` / random jitter passed in as
explicit parameters.  Fallible or diverging code returns `Option`.
-/

namespace Geecache

/-! ### Recency (LRU) eviction container — geecache/lru/lru.go

`entry` holds `key`, `value`, `expire`; the cache owns a doubly linked
list (front = most recently used) plus a map from key to list element.
The list together with the key-uniqueness of the map is embedded as a
single `List LEntry` ordered front to back; map lookup is a scan for the
(unique) entry with the given key. -/

structure LEntry where
  key : String
  value : List Nat
  expire : Int
deriving DecidableEq

/-- `len(key) + value.Len()`, the byte charge of one entry. -/
def LEntry.size (e : LEntry) : Int := (e.key.length : Int) + e.value.length

/-- Σ (len(key) + value.Len()) over a list of entries. -/
def sumBytes (l : List LEntry) : Int := (l.map LEntry.size).sum

structure LRUCache where
  maxBytes : Int
  nBytes : Int
  ll : List LEntry
deriving DecidableEq

/-- Map lookup plus unlinking: find the first entry with key `k`, return
it together with the list with that entry removed (order of the rest
preserved).  Mirrors `c.cache[key]` followed by operations on the found
`*list.Element`. -/
def removeKey : List LEntry → String → Option (LEntry × List LEntry)
  | [], _ => none
  | e :: rest, k =>
    if e.key = k then some (e, rest)
    else
      match removeKey rest k with
      | some (f, rest2) => some (f, e :: rest2)
      | none => none

/-- `LRUCache.Get`: on a present, unexpired key move the node to the
front and return its value; on a present, expired key remove the entry
(`RemoveElement`: unlink, delete from map, decrement `nBytes`) and miss;
otherwise miss. -/
def LRUCache.get (c : LRUCache) (key : String) (now : Int) :
    Option (List Nat) × LRUCache :=
  match removeKey c.ll key with
  | some (e, rest) =>
    if e.expire < now then
      (none, { c with ll := rest, nBytes := c.nBytes - e.size })
    else
      (some e.value, { c with ll := e :: rest })
  | none => (none, c)

/-- The scan inside `LRUCache.RemoveOldest`: walk from the back of the
list toward the front (`e := c.ll.Back(); e = e.Prev()`) and unlink the
first entry whose `expire` is before `now`; `none` when no entry is
expired. -/
def removeBackExpired : List LEntry → Int → Option (LEntry × List LEntry)
  | [], _ => none
  | e :: rest, now =>
    match removeBackExpired rest now with
    | some (f, rest2) => some (f, e :: rest2)
    | none => if e.expire < now then some (e, rest) else none

/-- `LRUCache.RemoveOldest`: remove the first expired entry found
scanning from the back; a no-op when none is expired. -/
def LRUCache.removeOldest (c : LRUCache) (now : Int) : LRUCache :=
  match removeBackExpired c.ll now with
  | some (f, rest) => { c with ll := rest, nBytes := c.nBytes - f.size }
  | none => c

theorem removeBackExpired_length {l : List LEntry} {now : Int} {f : LEntry}
    {rest : List LEntry} (h : removeBackExpired l now = some (f, rest)) :
    rest.length + 1 = l.length := by
  induction l generalizing f rest with
  | nil => simp [removeBackExpired] at h
  | cons e tl ih =>
    cases htl : removeBackExpired tl now with
    | some p =>
      obtain ⟨f2, rest2⟩ := p
      simp only [removeBackExpired, htl, Option.some.injEq, Prod.mk.injEq] at h
      obtain ⟨hf, hr⟩ := h
      subst hr
      have := ih htl
      simp only [List.length_cons]
      omega
    | none =>
      simp only [removeBackExpired, htl] at h
      split at h
      · simp only [Option.some.injEq, Prod.mk.injEq] at h
        obtain ⟨hf, hr⟩ := h
        subst hr
        simp
      · exact absurd h (by simp)

/-- The `for c.maxBytes != 0 && c.maxBytes < c.nBytes { c.RemoveOldest() }`
loop at the end of `LRUCache.Add`.  When the cache is over budget and
`RemoveOldest` finds no expired entry, the Go loop spins forever; that
divergence is modelled as `none`. -/
def evictLoop (c : LRUCache) (now : Int) : Option LRUCache :=
  if c.maxBytes ≠ 0 ∧ c.maxBytes < c.nBytes then
    match h : removeBackExpired c.ll now with
    | some (f, rest) =>
      evictLoop { c with ll := rest, nBytes := c.nBytes - f.size } now
    | none => none
  else some c
termination_by c.ll.length
decreasing_by
  have := removeBackExpired_length h
  omega

/-- The branch of `LRUCache.Add` before the eviction loop: on an existing
key, move to front, adjust `nBytes` by the value-length difference,
replace the value, and move `expire` forward only (replace only when the
candidate is strictly greater); on a new key, push a fresh entry to the
front and charge `len(key) + value.Len()`.  `expireTime` is
`time.Now().Add(ttl + jitter)`; the `part_000` variant draws `jitter`
uniformly from `[0, 60s)`, the `geecache/lru` variant uses `jitter = 0`,
so `jitter` is a parameter. -/
def LRUCache.addEntry (c : LRUCache) (key : String) (value : List Nat)
    (ttl jitter now : Int) : LRUCache :=
  let expireTime := now + ttl + jitter
  match removeKey c.ll key with
  | some (e, rest) =>
    { c with
      ll := { key := key, value := value,
              expire := if e.expire < expireTime then expireTime else e.expire } :: rest,
      nBytes := c.nBytes + (value.length : Int) - e.value.length }
  | none =>
    { c with
      ll := { key := key, value := value, expire := expireTime } :: c.ll,
      nBytes := c.nBytes + (key.length : Int) + value.length }

/-- `LRUCache.Add`: update or insert, then run the eviction loop.
`none` means the Go code never returns (see `evictLoop`). -/
def LRUCache.add (c : LRUCache) (key : String) (value : List Nat)
    (ttl jitter now : Int) : Option LRUCache :=
  evictLoop (c.addEntry key value ttl jitter now) now

/-- The §3 byte-counter invariant for the recency container. -/
def LRUCache.SumInv (c : LRUCache) : Prop := c.nBytes = sumBytes c.ll

/-! ### Frequency (LFU) eviction container — geecache/lfu/lfu.go

The min-heap (`container/heap` over `entryHeap`, ordered by `freq`) is
embedded as a bag of entries: `heap.Pop` removes an entry of minimal
`freq` (ties are resolved arbitrarily by the Go heap; the embedding takes
the first minimal one), `heap.Fix` is order bookkeeping with no
observable effect on the bag. -/

structure FEntry where
  key : String
  value : List Nat
  freq : Nat
  expire : Int
deriving DecidableEq

def FEntry.size (e : FEntry) : Int := (e.key.length : Int) + e.value.length

def fsumBytes (l : List FEntry) : Int := (l.map FEntry.size).sum

structure LFUCache where
  maxBytes : Int
  nBytes : Int
  heap : List FEntry
deriving DecidableEq

/-- `heap.Pop`: remove an entry of minimal `freq` (the first such one);
`none` on an empty heap, where the Go call panics with an index error. -/
def popMin : List FEntry → Option (FEntry × List FEntry)
  | [] => none
  | e :: rest =>
    match popMin rest with
    | none => some (e, [])
    | some (f, rest2) =>
      if e.freq ≤ f.freq then some (e, rest) else some (f, e :: rest2)

/-- Map lookup plus removal for the LFU bag, as for the LRU list. -/
def fremoveKey : List FEntry → String → Option (FEntry × List FEntry)
  | [], _ => none
  | e :: rest, k =>
    if e.key = k then some (e, rest)
    else
      match fremoveKey rest k with
      | some (f, rest2) => some (f, e :: rest2)
      | none => none

/-- `LFUCache.Get`: present and unexpired → `freq++`, `heap.Fix`, hit;
present and expired → `removeElement` (drop from heap and map, decrement
`nBytes`) and miss; absent → miss. -/
def LFUCache.get (c : LFUCache) (key : String) (now : Int) :
    Option (List Nat) × LFUCache :=
  match fremoveKey c.heap key with
  | some (e, rest) =>
    if e.expire < now then
      (none, { c with heap := rest, nBytes := c.nBytes - e.size })
    else
      (some e.value, { c with heap := { e with freq := e.freq + 1 } :: rest })
  | none => (none, c)

/-- `LFUCache.RemoveOldest`: pop the heap minimum, delete it from the
map, decrement `nBytes`.  There is no emptiness guard: on an empty heap
`heap.Pop` panics, modelled as `none`. -/
def LFUCache.removeOldest (c : LFUCache) : Option LFUCache :=
  match popMin c.heap with
  | some (e, rest) => some { c with heap := rest, nBytes := c.nBytes - e.size }
  | none => none

theorem popMin_none {l : List FEntry} (h : popMin l = none) : l = [] := by
  cases l with
  | nil => rfl
  | cons a tl =>
    simp only [popMin] at h
    cases htl : popMin tl with
    | none => simp [htl] at h
    | some p =>
      obtain ⟨f, rest2⟩ := p
      simp only [popMin, htl] at h
      split at h <;> simp at h

theorem popMin_length {l : List FEntry} {e : FEntry} {rest : List FEntry}
    (h : popMin l = some (e, rest)) : rest.length + 1 = l.length := by
  induction l generalizing e rest with
  | nil => simp [popMin] at h
  | cons a tl ih =>
    cases htl : popMin tl with
    | none =>
      have : tl = [] := popMin_none htl
      subst this
      simp only [popMin, Option.some.injEq, Prod.mk.injEq] at h
      obtain ⟨he, hr⟩ := h
      subst hr
      simp
    | some p =>
      obtain ⟨f, rest2⟩ := p
      simp only [popMin, htl] at h
      split at h
      · simp only [Option.some.injEq, Prod.mk.injEq] at h
        obtain ⟨he, hr⟩ := h
        subst hr
        simp
      · simp only [Option.some.injEq, Prod.mk.injEq] at h
        obtain ⟨he, hr⟩ := h
        subst hr
        have := ih htl
        simp only [List.length_cons]
        omega

/-- The `for c.maxBytes != 0 && c.maxBytes < c.nBytes { c.RemoveOldest() }`
loop at the end of `LFUCache.Add`; `none` when an iteration pops an empty
heap (the Go code panics there). -/
def fevictLoop (c : LFUCache) : Option LFUCache :=
  if c.maxBytes ≠ 0 ∧ c.maxBytes < c.nBytes then
    match h : popMin c.heap with
    | some (e, rest) =>
      fevictLoop { c with heap := rest, nBytes := c.nBytes - e.size }
    | none => none
  else some c
termination_by c.heap.length
decreasing_by
  have := popMin_length h
  omega

/-- The branch of `LFUCache.Add` before the eviction loop.  On an
existing key the source does `freq++`, replaces the value, resets
`expire = now + ttl` and calls `heap.Fix` — it does NOT adjust `nBytes`
by the value-length difference.  On a new key it inserts with `freq = 1`
and charges `len(key) + value.Len()`. -/
def LFUCache.addEntry (c : LFUCache) (key : String) (value : List Nat)
    (ttl now : Int) : LFUCache :=
  match fremoveKey c.heap key with
  | some (e, rest) =>
    { c with
      heap := { key := key, value := value, freq := e.freq + 1,
                expire := now + ttl } :: rest }
  | none =>
    { c with
      heap := { key := key, value := value, freq := 1,
                expire := now + ttl } :: c.heap,
      nBytes := c.nBytes + (key.length : Int) + value.length }

/-- `LFUCache.Add`: update or insert, then evict while over budget.
`none` means the Go code panics inside `RemoveOldest`. -/
def LFUCache.add (c : LFUCache) (key : String) (value : List Nat)
    (ttl now : Int) : Option LFUCache :=
  fevictLoop (c.addEntry key value ttl now)

/-- The §3 byte-counter invariant for the frequency container. -/
def LFUCache.SumInv (c : LFUCache) : Prop := c.nBytes = fsumBytes c.heap

/-! ### Group controller — geecache/geecache.go

`Group.Get` consults `g.hotCache.get`, then `g.mainCache.get`, then
`g.load`.  In the source the two caches sit behind the `BaseCache`
interface and the loader behind `Getter`; the embedding keeps them
abstract as function-valued fields, and additionally records which of
the three collaborators were invoked, in order. -/

inductive GroupEvent where
  | hotProbe
  | mainProbe
  | loadCall
deriving DecidableEq

structure GroupModel where
  hotGet : String → Option (List Nat)
  mainGet : String → Option (List Nat)
  loadFn : String → Except String (List Nat)

/-- `Group.Get`: reject the empty key with `"key is required"` before
touching anything; otherwise probe the hot-cache, then the main-cache,
and only on a double miss delegate to `load`.  The second component
lists the collaborators invoked, in order. -/
def GroupModel.getTraced (g : GroupModel) (key : String) :
    Except String (List Nat) × List GroupEvent :=
  if key = "" then (.error "key is required", [])
  else
    match g.hotGet key with
    | some v => (.ok v, [.hotProbe])
    | none =>
      match g.mainGet key with
      | some v => (.ok v, [.hotProbe, .mainProbe])
      | none => (g.loadFn key, [.hotProbe, .mainProbe, .loadCall])

/-! The body of `Group.load` (the function handed to the single-flight
`Do`): if a peer picker is registered and picks a remote peer, try the
remote fetch; on success return its value, on failure log the error and
fall through to `getLocally`.  With no picker or a self pick, go straight
to `getLocally`.  The picker, the remote fetch and the local loader are
the suspension points; their outcomes are parameters. -/

inductive LoadEvent where
  | remoteFetch
  | remoteErrorLogged (e : String)
  | localLoad
deriving DecidableEq

structure LoadEnv where
  /-- `g.peers != nil` (a picker has been registered). -/
  hasPeers : Bool
  /-- `g.peers.PickPeer(key)`: `true` means a remote peer was returned. -/
  pickOk : Bool
  /-- Outcome of `g.getFromPeer(peer, key)`. -/
  remoteResult : Except String (List Nat)
  /-- Outcome of `g.getLocally(key)` (loader error surfaced verbatim). -/
  localResult : Except String (List Nat)

def loadBody (env : LoadEnv) : Except String (List Nat) × List LoadEvent :=
  if env.hasPeers ∧ env.pickOk then
    match env.remoteResult with
    | .ok v => (.ok v, [.remoteFetch])
    | .error e => (env.localResult, [.remoteFetch, .remoteErrorLogged e, .localLoad])
  else (env.localResult, [.localLoad])

/-! `Group.getFromPeer` statistics update.  `KeyStats` keeps
`firstGetTime` (Unix seconds) and the atomic counter `remoteCnt`;
`g.keys` is an association `key → KeyStats`.  On a successful remote
fetch: if stats exist, increment the counter, compute
`qps = cnt / max(1, round((now − firstGetTime)/60))` and on
`qps ≥ maxMinuteRemoteQPS` (10) install the fetched bytes into the
hot-cache and delete the stats entry; else record fresh stats
`{firstGetTime := now, remoteCnt := 1}`.  Hot-cache installs are
recorded, most recent first. -/

structure KeyStats where
  firstGetTime : Int
  remoteCnt : Int
deriving DecidableEq

def maxMinuteRemoteQPS : Int := 10

/-- `math.Round(float64(d) / 60)`: rounding half away from zero of the
exact rational `d / 60` (the float computation is exact to this for all
realistic intervals). -/
def roundDiv60 (d : Int) : Int :=
  if 0 ≤ d then (d + 30) / 60 else -((-d + 30) / 60)

def lookupKS : List (String × KeyStats) → String → Option KeyStats
  | [], _ => none
  | (k, s) :: rest, key => if k = key then some s else lookupKS rest key

def eraseKS : List (String × KeyStats) → String → List (String × KeyStats)
  | [], _ => []
  | (k, s) :: rest, key =>
    if k = key then rest else (k, s) :: eraseKS rest key

def updateKS : List (String × KeyStats) → String → KeyStats →
    List (String × KeyStats)
  | [], _, _ => []
  | (k, s) :: rest, key, ns =>
    if k = key then (k, ns) :: rest else (k, s) :: updateKS rest key ns

structure PeerStatsState where
  keys : List (String × KeyStats)
  hotInstalls : List (String × List Nat)
deriving DecidableEq

/-- `Group.getFromPeer` after `peer.Get` returned: `peerResult` carries
the decoded response bytes or the transport/logical error. -/
def getFromPeer (st : PeerStatsState) (key : String)
    (peerResult : Except String (List Nat)) (now : Int) :
    Except String (List Nat) × PeerStatsState :=
  match peerResult with
  | .error e => (.error e, st)
  | .ok bytes =>
    match lookupKS st.keys key with
    | some stat =>
      let cnt := stat.remoteCnt + 1
      -- Go's int64 division truncates toward zero: Int.tdiv
      let qps := Int.tdiv cnt (max 1 (roundDiv60 (now - stat.firstGetTime)))
      if maxMinuteRemoteQPS ≤ qps then
        (.ok bytes,
         { keys := eraseKS st.keys key,
           hotInstalls := (key, bytes) :: st.hotInstalls })
      else
        (.ok bytes,
         { st with keys := updateKS st.keys key { stat with remoteCnt := cnt } })
    | none =>
      (.ok bytes,
       { st with keys := (key, { firstGetTime := now, remoteCnt := 1 }) :: st.keys })

/-! ### Single-flight group — geecache/singleflight/singleflight.go

`Group.Do(key, fn)` for one fixed key, as an interleaving transition
system.  `g.m[key]` is `reg : Option CID` (`CID` numbers the `call`
records ever created for this key; different keys use disjoint map slots
and interact only through the mutex, which only provides the atomicity
already reflected in the step granularity).  Each mutex-protected region
of `Do` is one atomic step; `fn` runs outside the mutex as its own step.
A `call`'s `WaitGroup` latch is `callDone`, its recorded result
`callVal` (the `(val, err)` pair, abstracted to `Nat`).

Thread program counters, following the source line by line:
* `idle`     — about to enter `Do`;
* `waiting c`— found `g.m[key] = c`, released the mutex, blocked in
  `c.wg.Wait()`;
* `running c`— registered call `c` (`wg.Add(1)`, `g.m[key] = c`),
  released the mutex, executing `fn`;
* `afterFn c`— `fn` returned, result recorded on `c`, `wg.Done()` done,
  about to re-acquire the mutex and `delete(g.m, key)`;
* `finished v` — returned `v`. -/

inductive SFPc where
  | idle
  | waiting (c : Nat)
  | running (c : Nat)
  | afterFn (c : Nat)
  | finished (v : Nat)
deriving DecidableEq

structure SFState where
  reg : Option Nat
  nextC : Nat
  callDone : Nat → Bool
  callVal : Nat → Nat
  pc : Nat → SFPc

def SFState.init : SFState :=
  { reg := none, nextC := 0, callDone := fun _ => false,
    callVal := fun _ => 0, pc := fun _ => SFPc.idle }

def updFn {α : Type} (f : Nat → α) (t : Nat) (v : α) : Nat → α :=
  fun x => if x = t then v else f x

/-- One interleaving step of some thread `t`. -/
inductive SFStep : SFState → SFState → Prop where
  /-- First locked region, no call registered: create `c = nextC`
  (`wg.Add(1)`, `g.m[key] = c`), unlock, start running `fn`. -/
  | startLeader (s : SFState) (t : Nat) :
      s.pc t = SFPc.idle → s.reg = none →
      SFStep s { reg := some s.nextC, nextC := s.nextC + 1,
                 callDone := updFn s.callDone s.nextC false,
                 callVal := s.callVal,
                 pc := updFn s.pc t (SFPc.running s.nextC) }
  /-- First locked region, call `c` registered: unlock and block in
  `c.wg.Wait()`. -/
  | startFollower (s : SFState) (t c : Nat) :
      s.pc t = SFPc.idle → s.reg = some c →
      SFStep s { s with pc := updFn s.pc t (SFPc.waiting c) }
  /-- `fn` returns `v`: record `c.val, c.err`, then `c.wg.Done()`. -/
  | finishFn (s : SFState) (t c v : Nat) :
      s.pc t = SFPc.running c →
      SFStep s { s with callDone := updFn s.callDone c true,
                        callVal := updFn s.callVal c v,
                        pc := updFn s.pc t (SFPc.afterFn c) }
  /-- Second locked region: `delete(g.m, key)`, unlock, return the
  recorded result. -/
  | deleteKey (s : SFState) (t c : Nat) :
      s.pc t = SFPc.afterFn c →
      SFStep s { s with reg := none,
                        pc := updFn s.pc t (SFPc.finished (s.callVal c)) }
  /-- `c.wg.Wait()` unblocks (the latch was released) and the follower
  returns `c.val, c.err`. -/
  | finishWait (s : SFState) (t c : Nat) :
      s.pc t = SFPc.waiting c → s.callDone c = true →
      SFStep s { s with pc := updFn s.pc t (SFPc.finished (s.callVal c)) }

inductive SFReach : SFState → Prop where
  | init : SFReach SFState.init
  | step {s s2 : SFState} : SFReach s → SFStep s s2 → SFReach s2

/-- Thread `t` owns call `c`: it registered `c` and has not yet deleted
the key (it is executing `fn` or about to delete). -/
def SFOwner (s : SFState) (t c : Nat) : Prop :=
  s.pc t = SFPc.running c ∨ s.pc t = SFPc.afterFn c

/-! ### Consistent-hash ring — C3 of the spec

Modelled from the spec: the implementation file
`geecache/consistenthash/consistenthash.go` is not under `src/` (only
its test is), so §4.3 of the spec is embedded directly.  The ring keeps
a replica count, a hash function, the ascending vector of virtual-node
hashes and the virtual-node → peer mapping.  `Add` appends, per peer,
`replicas` virtual nodes hashed from `i ++ peer` for `i < replicas`,
then re-sorts ascending; `Get` on an empty ring returns `""`, else finds
the least virtual-node hash `≥ hash(key)`, wrapping to index 0. -/

structure HashRing where
  replicas : Nat
  hashFn : String → Nat
  keys : List Nat
  hmap : List (Nat × String)

def lookupPeer : List (Nat × String) → Nat → String
  | [], _ => ""
  | (h, p) :: rest, k => if h = k then p else lookupPeer rest k

/-- Modelled from the spec: `New(replicas, hashFn)`. -/
def HashRing.new (replicas : Nat) (hashFn : String → Nat) : HashRing :=
  { replicas := replicas, hashFn := hashFn, keys := [], hmap := [] }

/-- Modelled from the spec: `Add(peers…)` — for each peer insert
`replicas` virtual nodes at `hash(i ++ peer)`, record the mapping (a map
assignment, so on a hash collision the latest insertion wins: newest
pairs are consulted first by `lookupPeer`), and re-sort the key vector
ascending. -/
def HashRing.add (m : HashRing) (peers : List String) : HashRing :=
  let pairs :=
    (peers.map fun p =>
      (List.range m.replicas).map fun i => (m.hashFn (toString i ++ p), p)).flatten
  { m with
    keys := (m.keys ++ pairs.map Prod.fst).insertionSort (· ≤ ·),
    hmap := pairs.reverse ++ m.hmap }

/-- Modelled from the spec: `Get(key)` — `""` on an empty ring;
otherwise binary-search the ascending vector for the least virtual-node
hash `≥ hash(key)` (the first such in ascending order), wrapping to
index 0 when none, and return the mapped peer. -/
def HashRing.get (m : HashRing) (key : String) : String :=
  match m.keys with
  | [] => ""
  | k0 :: _ =>
    let h := m.hashFn key
    match m.keys.find? (fun k => h ≤ k) with
    | some k => lookupPeer m.hmap k
    | none => lookupPeer m.hmap k0

/-- The identity hash of the ring test: the key's decimal value
(`strconv.Atoi`). -/
def atoiNat (s : String) : Nat :=
  s.data.foldl (fun a c => a * 10 + (c.toNat - 48)) 0

/-! ### RPC value round trip — geecache/grpc.go

Modelled from the spec (§6): the generated protobuf codec
(`geecachepb.pb.go`, `proto.Marshal` / `proto.Unmarshal`) is not under
`src/`; the wire format is the language-neutral tagged,
length-delimited encoding with field tag 1 for `Response.value`
(key byte `0x0A`, varint length, raw bytes; a zero-length bytes field is
omitted entirely).

`Server.Get` marshals `Response{Value: view.ByteSlice()}` and stores the
resulting bytes in the reply's `value` field; `Client.Get` unmarshals
the received `value` field into its `out` response. -/

def encodeVarint (n : Nat) : List Nat :=
  if h : n < 128 then [n]
  else (n % 128 + 128) :: encodeVarint (n / 128)
termination_by n
decreasing_by exact Nat.div_lt_self (by omega) (by omega)

def decodeVarint : List Nat → Option (Nat × List Nat)
  | [] => none
  | b :: rest =>
    if b < 128 then some (b, rest)
    else
      match decodeVarint rest with
      | some (m, rest2) => some (m * 128 + (b - 128), rest2)
      | none => none

/-- `proto.Marshal(&pb.Response{Value: v})`. -/
def marshalResponse (v : List Nat) : List Nat :=
  if v = [] then [] else 10 :: (encodeVarint v.length ++ v)

/-- The field-parsing loop of `proto.Unmarshal` specialised to the
one-field `Response` message: repeatedly read a tag; on tag `0x0A`
(field 1, wire type length-delimited) read a varint length and that many
bytes as the current value (last occurrence wins); fail on anything
else.  `fuel` bounds the loop (each iteration consumes at least one
byte). -/
def parseResponseFields : Nat → List Nat → List Nat → Option (List Nat)
  | _, [], acc => some acc
  | 0, _ :: _, _ => none
  | fuel + 1, bytes, acc =>
    match decodeVarint bytes with
    | none => none
    | some (tag, rest) =>
      if tag = 10 then
        match decodeVarint rest with
        | none => none
        | some (len, rest2) =>
          if len ≤ rest2.length then
            parseResponseFields fuel (rest2.drop len) (rest2.take len)
          else none
      else none

/-- `proto.Unmarshal(bytes, out)`: `out.Value` (absent fields decode to
the empty byte string). -/
def unmarshalResponse (bytes : List Nat) : Option (List Nat) :=
  parseResponseFields (bytes.length + 1) bytes []

/-- `ByteView` (geecache/byteview.go): an immutable byte slice. -/
structure ByteView where
  b : List Nat
deriving DecidableEq

/-- `cloneBytes`: copy into a fresh buffer (same byte content). -/
def cloneBytes (b : List Nat) : List Nat := b.map id

/-- `ByteView.ByteSlice()`: a defensive copy of the bytes. -/
def ByteView.byteSlice (v : ByteView) : List Nat := cloneBytes v.b

/-- The `value` field of the reply built by `Server.Get` for cached view
`v`: `proto.Marshal(&pb.Response{Value: v.ByteSlice()})`. -/
def serverReplyValue (v : ByteView) : List Nat :=
  marshalResponse v.byteSlice

/-- What `Client.Get` stores in `out.Value` after unmarshalling the
reply's `value` field. -/
def clientDecodedValue (v : ByteView) : Option (List Nat) :=
  unmarshalResponse (serverReplyValue v)

/-! ### Auxiliary definitions for the stated properties -/

/-- Key uniqueness of the LRU map/list pair (every key in the Go map
appears exactly once in the list). -/
def LRUCache.KeysNodup (c : LRUCache) : Prop := (c.ll.map LEntry.key).Nodup

/-- One recorded `Add` call (with its nondeterministic inputs made
explicit). -/
structure AddOp where
  key : String
  value : List Nat
  ttl : Int
  jitter : Int
  now : Int

/-- A sequence of `Add` calls against the recency container. -/
def runAdds : LRUCache → List AddOp → Option LRUCache
  | c, [] => some c
  | c, op :: ops =>
    match c.add op.key op.value op.ttl op.jitter op.now with
    | some c2 => runAdds c2 ops
    | none => none

/-- The stored expiration of key `k`, when present. -/
def lookupExpire (c : LRUCache) (k : String) : Option Int :=
  (c.ll.find? (fun e => e.key = k)).map LEntry.expire

/-- Key `k`'s entry survives every step of the `Add` sequence (the
lifetime of one entry: once an entry is destroyed, a later `Add` creates
a different entry). -/
def presentThroughout : LRUCache → List AddOp → String → Prop
  | _, [], _ => True
  | c, op :: ops, k =>
    match c.add op.key op.value op.ttl op.jitter op.now with
    | some c2 => (lookupExpire c2 k).isSome ∧ presentThroughout c2 ops k
    | none => True

/-! Concrete single-flight execution used to witness the guarantees:
thread 0 leads call 0 and records result 7; thread 1 joins as a
follower while the call is registered, and the leader then deletes the
key. -/

def sfS1 : SFState :=
  { reg := some 0, nextC := 1,
    callDone := updFn SFState.init.callDone 0 false,
    callVal := SFState.init.callVal,
    pc := updFn SFState.init.pc 0 (SFPc.running 0) }

def sfS2 : SFState :=
  { sfS1 with
    callDone := updFn sfS1.callDone 0 true,
    callVal := updFn sfS1.callVal 0 7,
    pc := updFn sfS1.pc 0 (SFPc.afterFn 0) }

def sfS3 : SFState :=
  { sfS2 with pc := updFn sfS2.pc 1 (SFPc.waiting 0) }

def sfS4 : SFState :=
  { sfS3 with pc := updFn sfS3.pc 1 (SFPc.finished (sfS3.callVal 0)) }

def sfS5 : SFState :=
  { sfS4 with
    reg := none,
    pc := updFn sfS4.pc 0 (SFPc.finished (sfS4.callVal 0)) }

/-- A concrete group used to witness the `Group.Get` control flow. -/
def gWitness : GroupModel :=
  { hotGet := fun k => if k = "hot" then some [1] else none,
    mainGet := fun k => if k = "main" then some [2] else none,
    loadFn := fun _ => Except.ok [3] }

/-- The inductive invariant of the single-flight system: an owner's call
is the registered one, there is at most one owner, and a thread past
`wg.Done()` has its call's latch released. -/
def SFInv (s : SFState) : Prop :=
  (∀ t c, SFOwner s t c → s.reg = some c) ∧
  (∀ t1 t2 c1 c2, SFOwner s t1 c1 → SFOwner s t2 c2 → t1 = t2) ∧
  (∀ t c, s.pc t = SFPc.afterFn c → s.callDone c = true)

end Geecache

namespace Geecache

/-! ## List-operation lemmas -/

theorem removeKey_key {l : List LEntry} {k : String} {e : LEntry}
    {rest : List LEntry} (h : removeKey l k = some (e, rest)) : e.key = k := by
  induction l generalizing e rest with
  | nil => simp [removeKey] at h
  | cons a tl ih =>
    simp only [removeKey] at h
    split at h
    · simp only [Option.some.injEq, Prod.mk.injEq] at h
      obtain ⟨he, _⟩ := h
      subst he
      assumption
    · cases htl : removeKey tl k with
      | none => simp [htl] at h
      | some p =>
        obtain ⟨f, rest2⟩ := p
        simp only [htl, Option.some.injEq, Prod.mk.injEq] at h
        obtain ⟨hf, _⟩ := h
        subst hf
        exact ih htl

theorem removeKey_perm {l : List LEntry} {k : String} {e : LEntry}
    {rest : List LEntry} (h : removeKey l k = some (e, rest)) :
    l.Perm (e :: rest) := by
  induction l generalizing e rest with
  | nil => simp [removeKey] at h
  | cons a tl ih =>
    simp only [removeKey] at h
    split at h
    · simp only [Option.some.injEq, Prod.mk.injEq] at h
      obtain ⟨he, hr⟩ := h
      subst he; subst hr
      exact List.Perm.refl _
    · cases htl : removeKey tl k with
      | none => simp [htl] at h
      | some p =>
        obtain ⟨f, rest2⟩ := p
        simp only [htl, Option.some.injEq, Prod.mk.injEq] at h
        obtain ⟨rfl, rfl⟩ := h
        exact ((ih htl).cons a).trans (List.Perm.swap _ _ _)

theorem removeKey_sublist {l : List LEntry} {k : String} {e : LEntry}
    {rest : List LEntry} (h : removeKey l k = some (e, rest)) :
    rest.Sublist l := by
  induction l generalizing e rest with
  | nil => simp [removeKey] at h
  | cons a tl ih =>
    simp only [removeKey] at h
    split at h
    · simp only [Option.some.injEq, Prod.mk.injEq] at h
      obtain ⟨_, hr⟩ := h
      subst hr
      exact (List.sublist_cons_self a tl)
    · cases htl : removeKey tl k with
      | none => simp [htl] at h
      | some p =>
        obtain ⟨f, rest2⟩ := p
        simp only [htl, Option.some.injEq, Prod.mk.injEq] at h
        obtain ⟨_, hr⟩ := h
        subst hr
        exact (ih htl).cons₂ a

theorem removeKey_none {l : List LEntry} {k : String}
    (h : removeKey l k = none) : ∀ x ∈ l, x.key ≠ k := by
  induction l with
  | nil => simp
  | cons a tl ih =>
    simp only [removeKey] at h
    split at h
    · exact absurd h (by simp)
    · cases htl : removeKey tl k with
      | none =>
        intro x hx
        rcases List.mem_cons.mp hx with rfl | hx2
        · assumption
        · exact ih htl x hx2
      | some p => obtain ⟨f, rest2⟩ := p; simp [htl] at h

theorem removeBackExpired_perm {l : List LEntry} {now : Int} {f : LEntry}
    {rest : List LEntry} (h : removeBackExpired l now = some (f, rest)) :
    l.Perm (f :: rest) := by
  induction l generalizing f rest with
  | nil => simp [removeBackExpired] at h
  | cons a tl ih =>
    cases htl : removeBackExpired tl now with
    | some p =>
      obtain ⟨f2, rest2⟩ := p
      simp only [removeBackExpired, htl, Option.some.injEq, Prod.mk.injEq] at h
      obtain ⟨rfl, rfl⟩ := h
      exact ((ih htl).cons a).trans (List.Perm.swap _ _ _)
    | none =>
      simp only [removeBackExpired, htl] at h
      split at h
      · simp only [Option.some.injEq, Prod.mk.injEq] at h
        obtain ⟨hf, hr⟩ := h
        subst hf; subst hr
        exact List.Perm.refl _
      · exact absurd h (by simp)

theorem removeBackExpired_sublist {l : List LEntry} {now : Int} {f : LEntry}
    {rest : List LEntry} (h : removeBackExpired l now = some (f, rest)) :
    rest.Sublist l := by
  induction l generalizing f rest with
  | nil => simp [removeBackExpired] at h
  | cons a tl ih =>
    cases htl : removeBackExpired tl now with
    | some p =>
      obtain ⟨f2, rest2⟩ := p
      simp only [removeBackExpired, htl, Option.some.injEq, Prod.mk.injEq] at h
      obtain ⟨_, hr⟩ := h
      subst hr
      exact (ih htl).cons₂ a
    | none =>
      simp only [removeBackExpired, htl] at h
      split at h
      · simp only [Option.some.injEq, Prod.mk.injEq] at h
        obtain ⟨_, hr⟩ := h
        subst hr
        exact List.sublist_cons_self a tl
      · exact absurd h (by simp)

theorem removeBackExpired_none_iff {l : List LEntry} {now : Int} :
    removeBackExpired l now = none ↔ ∀ e ∈ l, ¬ e.expire < now := by
  induction l with
  | nil => simp [removeBackExpired]
  | cons a tl ih =>
    constructor
    · intro h
      simp only [removeBackExpired] at h
      cases htl : removeBackExpired tl now with
      | some p => obtain ⟨f, rest2⟩ := p; simp [htl] at h
      | none =>
        simp only [htl] at h
        split at h
        · exact absurd h (by simp)
        · rename_i hcond
          intro e he
          rcases List.mem_cons.mp he with rfl | he2
          · exact hcond
          · exact (ih.mp htl) e he2
    · intro h
      have htl : removeBackExpired tl now = none :=
        ih.mpr (fun e he => h e (List.mem_cons_of_mem a he))
      simp only [removeBackExpired, htl]
      have := h a (List.mem_cons_self a tl)
      simp [this]

theorem removeBackExpired_expired {l : List LEntry} {now : Int} {f : LEntry}
    {rest : List LEntry} (h : removeBackExpired l now = some (f, rest)) :
    f.expire < now := by
  induction l generalizing f rest with
  | nil => simp [removeBackExpired] at h
  | cons a tl ih =>
    cases htl : removeBackExpired tl now with
    | some p =>
      obtain ⟨f2, rest2⟩ := p
      simp only [removeBackExpired, htl, Option.some.injEq, Prod.mk.injEq] at h
      obtain ⟨hf, _⟩ := h
      subst hf
      exact ih htl
    | none =>
      simp only [removeBackExpired, htl] at h
      split at h
      · simp only [Option.some.injEq, Prod.mk.injEq] at h
        obtain ⟨hf, _⟩ := h
        subst hf
        assumption
      · exact absurd h (by simp)

theorem sumBytes_perm {l l2 : List LEntry} (h : l.Perm l2) :
    sumBytes l = sumBytes l2 :=
  (h.map LEntry.size).sum_eq


theorem sumBytes_cons (e : LEntry) (l : List LEntry) :
    sumBytes (e :: l) = e.size + sumBytes l := by
  simp [sumBytes]

theorem lentrySize_nonneg (e : LEntry) : 0 ≤ e.size := by
  unfold LEntry.size
  positivity

theorem fsumBytes_cons (e : FEntry) (l : List FEntry) :
    fsumBytes (e :: l) = e.size + fsumBytes l := by
  simp [fsumBytes]

theorem fentrySize_nonneg (e : FEntry) : 0 ≤ e.size := by
  unfold FEntry.size
  positivity

theorem fsumBytes_nonneg (l : List FEntry) : 0 ≤ fsumBytes l := by
  induction l with
  | nil => simp [fsumBytes]
  | cons e tl ih =>
    rw [fsumBytes_cons]
    have := fentrySize_nonneg e
    omega

theorem fsumBytes_perm {l l2 : List FEntry} (h : l.Perm l2) :
    fsumBytes l = fsumBytes l2 :=
  (h.map FEntry.size).sum_eq

/-! ## Invariant preservation for the recency container -/

theorem lruGet_SumInv (c : LRUCache) (key : String) (now : Int)
    (h : c.SumInv) : (c.get key now).2.SumInv := by
  unfold LRUCache.get
  cases hrk : removeKey c.ll key with
  | none => simpa using h
  | some p =>
    obtain ⟨e, rest⟩ := p
    have hsum : sumBytes c.ll = e.size + sumBytes rest := by
      rw [sumBytes_perm (removeKey_perm hrk), sumBytes_cons]
    unfold LRUCache.SumInv at h
    by_cases hexp : e.expire < now
    · simp only [hrk, if_pos hexp, LRUCache.SumInv]
      omega
    · simp only [hrk, if_neg hexp, LRUCache.SumInv, sumBytes_cons]
      omega

theorem lruRemoveOldest_SumInv (c : LRUCache) (now : Int)
    (h : c.SumInv) : (c.removeOldest now).SumInv := by
  unfold LRUCache.removeOldest
  cases hrb : removeBackExpired c.ll now with
  | none => simpa using h
  | some p =>
    obtain ⟨f, rest⟩ := p
    have hsum : sumBytes c.ll = f.size + sumBytes rest := by
      rw [sumBytes_perm (removeBackExpired_perm hrb), sumBytes_cons]
    unfold LRUCache.SumInv at h
    simp [LRUCache.SumInv]
    omega

/-- Preservation of `SumInv` by the `Add` eviction loop (bounded
induction on the entry count). -/
theorem evictLoop_SumInv_aux :
    ∀ (n : Nat) (c : LRUCache) (now : Int) (c2 : LRUCache),
      c.ll.length ≤ n → c.SumInv → evictLoop c now = some c2 → c2.SumInv := by
  intro n
  induction n with
  | zero =>
    intro c now c2 hlen hinv h
    rw [evictLoop] at h
    split at h
    · split at h
      · rename_i f rest hrb
        have := removeBackExpired_length hrb
        omega
      · exact absurd h (by simp)
    · simp only [Option.some.injEq] at h
      subst h
      exact hinv
  | succ n ih =>
    intro c now c2 hlen hinv h
    rw [evictLoop] at h
    split at h
    · split at h
      · rename_i f rest hrb
        have hlen2 := removeBackExpired_length hrb
        have hsum : sumBytes c.ll = f.size + sumBytes rest := by
          rw [sumBytes_perm (removeBackExpired_perm hrb), sumBytes_cons]
        apply ih _ now c2 (by simp; omega) _ h
        unfold LRUCache.SumInv at hinv ⊢
        simp only
        omega
      · exact absurd h (by simp)
    · simp only [Option.some.injEq] at h
      subst h
      exact hinv

theorem evictLoop_sublist_aux :
    ∀ (n : Nat) (c : LRUCache) (now : Int) (c2 : LRUCache),
      c.ll.length ≤ n → evictLoop c now = some c2 → c2.ll.Sublist c.ll := by
  intro n
  induction n with
  | zero =>
    intro c now c2 hlen h
    rw [evictLoop] at h
    split at h
    · split at h
      · rename_i f rest hrb
        have := removeBackExpired_length hrb
        omega
      · exact absurd h (by simp)
    · simp only [Option.some.injEq] at h
      subst h
      exact List.Sublist.refl _
  | succ n ih =>
    intro c now c2 hlen h
    rw [evictLoop] at h
    split at h
    · split at h
      · rename_i f rest hrb
        have hlen2 := removeBackExpired_length hrb
        have hsub := ih _ now c2 (by simp; omega) h
        exact hsub.trans (removeBackExpired_sublist hrb)
      · exact absurd h (by simp)
    · simp only [Option.some.injEq] at h
      subst h
      exact List.Sublist.refl _

theorem evictLoop_maxBytes_aux :
    ∀ (n : Nat) (c : LRUCache) (now : Int) (c2 : LRUCache),
      c.ll.length ≤ n → evictLoop c now = some c2 → c2.maxBytes = c.maxBytes := by
  intro n
  induction n with
  | zero =>
    intro c now c2 hlen h
    rw [evictLoop] at h
    split at h
    · split at h
      · rename_i f rest hrb
        have := removeBackExpired_length hrb
        omega
      · exact absurd h (by simp)
    · simp only [Option.some.injEq] at h
      subst h
      rfl
  | succ n ih =>
    intro c now c2 hlen h
    rw [evictLoop] at h
    split at h
    · split at h
      · rename_i f rest hrb
        have hlen2 := removeBackExpired_length hrb
        have hm := ih { c with ll := rest, nBytes := c.nBytes - f.size } now c2
          (by simp; omega) h
        exact hm
      · exact absurd h (by simp)
    · simp only [Option.some.injEq] at h
      subst h
      rfl

/-- With no expired entry in sight the eviction loop terminates exactly
when it has nothing to do: the very first iteration either exits or
spins forever. -/
theorem evictLoop_noExpired (c : LRUCache) (now : Int)
    (h : ∀ e ∈ c.ll, ¬ e.expire < now) :
    (evictLoop c now).isSome ↔ (c.maxBytes = 0 ∨ c.nBytes ≤ c.maxBytes) := by
  have hrb : removeBackExpired c.ll now = none := removeBackExpired_none_iff.mpr h
  rw [evictLoop]
  split
  · rename_i hcond
    split
    · rename_i f rest hrb2
      rw [hrb] at hrb2
      exact absurd hrb2 (by simp)
    · simp only [Option.isSome_none, Bool.false_eq_true, false_iff]
      intro hor
      obtain ⟨h1, h2⟩ := hcond
      rcases hor with h3 | h3 <;> omega
  · rename_i hcond
    simp only [Option.isSome_some, true_iff]
    rw [not_and_or] at hcond
    rcases hcond with h1 | h1
    · left; omega
    · right; omega

theorem lruAddEntry_SumInv (c : LRUCache) (key : String) (value : List Nat)
    (ttl jitter now : Int) (h : c.SumInv) :
    (c.addEntry key value ttl jitter now).SumInv := by
  unfold LRUCache.SumInv at h
  unfold LRUCache.addEntry LRUCache.SumInv
  cases hrk : removeKey c.ll key with
  | none =>
    simp only [hrk, sumBytes_cons, LEntry.size]
    omega
  | some p =>
    obtain ⟨e, rest⟩ := p
    have hsum : sumBytes c.ll = e.size + sumBytes rest := by
      rw [sumBytes_perm (removeKey_perm hrk), sumBytes_cons]
    have hkey : e.key = key := removeKey_key hrk
    have hesize : e.size = (key.length : Int) + e.value.length := by
      rw [LEntry.size, hkey]
    simp only [hrk, sumBytes_cons, LEntry.size]
    omega

/-- `Add` preserves the byte-counter invariant in the recency container
(whenever it returns at all). -/
theorem lruAdd_SumInv (c : LRUCache) (key : String) (value : List Nat)
    (ttl jitter now : Int) (c2 : LRUCache) (h : c.SumInv)
    (hadd : c.add key value ttl jitter now = some c2) : c2.SumInv :=
  evictLoop_SumInv_aux (c.addEntry key value ttl jitter now).ll.length _ now c2
    (Nat.le_refl _) (lruAddEntry_SumInv c key value ttl jitter now h) hadd

/-! ## Key-uniqueness and expiry-monotonicity lemmas (recency) -/

theorem removeKey_not_mem {l : List LEntry} {k : String} {e : LEntry}
    {rest : List LEntry} (h : removeKey l k = some (e, rest))
    (hnd : (l.map LEntry.key).Nodup) : ∀ x ∈ rest, x.key ≠ k := by
  have hperm : (l.map LEntry.key).Perm (e.key :: rest.map LEntry.key) := by
    simpa using (removeKey_perm h).map LEntry.key
  have hnd2 : (e.key :: rest.map LEntry.key).Nodup := hperm.nodup_iff.mp hnd
  have hkey := removeKey_key h
  intro x hx hxk
  have : x.key ∈ rest.map LEntry.key := List.mem_map_of_mem LEntry.key hx
  rw [hxk, ← hkey] at this
  exact (List.nodup_cons.mp hnd2).1 this

theorem lruAddEntry_nodup (c : LRUCache) (key : String) (value : List Nat)
    (ttl jitter now : Int) (h : c.KeysNodup) :
    (c.addEntry key value ttl jitter now).KeysNodup := by
  unfold LRUCache.KeysNodup at h
  unfold LRUCache.addEntry LRUCache.KeysNodup
  cases hrk : removeKey c.ll key with
  | none =>
    simp only [hrk, List.map_cons, List.nodup_cons]
    refine ⟨?_, h⟩
    intro hmem
    obtain ⟨x, hx, hxk⟩ := List.mem_map.mp hmem
    exact removeKey_none hrk x hx hxk
  | some p =>
    obtain ⟨e, rest⟩ := p
    have hperm : (c.ll.map LEntry.key).Perm (e.key :: rest.map LEntry.key) := by
      simpa using (removeKey_perm hrk).map LEntry.key
    have hnd2 : (e.key :: rest.map LEntry.key).Nodup := hperm.nodup_iff.mp h
    have hkey := removeKey_key hrk
    simp only [hrk, List.map_cons, List.nodup_cons]
    rw [← hkey]
    exact ⟨(List.nodup_cons.mp hnd2).1, (List.nodup_cons.mp hnd2).2⟩

theorem keysNodup_sublist {c c2 : LRUCache} (hsub : c2.ll.Sublist c.ll)
    (h : c.KeysNodup) : c2.KeysNodup :=
  List.Nodup.sublist (hsub.map LEntry.key) h

theorem lruAdd_nodup (c : LRUCache) (key : String) (value : List Nat)
    (ttl jitter now : Int) (c2 : LRUCache) (h : c.KeysNodup)
    (hadd : c.add key value ttl jitter now = some c2) : c2.KeysNodup :=
  keysNodup_sublist
    (evictLoop_sublist_aux (c.addEntry key value ttl jitter now).ll.length _ now c2
      (Nat.le_refl _) hadd)
    (lruAddEntry_nodup c key value ttl jitter now h)

/-- With unique keys, `find?` by key is determined by membership. -/
theorem find?_key_eq_some {l : List LEntry} {k : String} {e : LEntry}
    (hnd : (l.map LEntry.key).Nodup) (hmem : e ∈ l) (hk : e.key = k) :
    l.find? (fun x => x.key = k) = some e := by
  induction l with
  | nil => simp at hmem
  | cons a tl ih =>
    rcases List.mem_cons.mp hmem with rfl | hmem2
    · exact List.find?_cons_of_pos _ (by simp [hk])
    · have hnd2 : (List.map LEntry.key (a :: tl)).Nodup := hnd
      rw [List.map_cons, List.nodup_cons] at hnd2
      have hak : ¬ (a.key = k) := by
        intro hak
        apply hnd2.1
        rw [hak, ← hk]
        exact List.mem_map_of_mem LEntry.key hmem2
      rw [List.find?_cons_of_neg _ (by simp [hak])]
      exact ih hnd2.2 hmem2

theorem lookupExpire_some {c : LRUCache} {k : String} {e1 : Int}
    (h : lookupExpire c k = some e1) :
    ∃ x, c.ll.find? (fun y => y.key = k) = some x ∧ x ∈ c.ll ∧
      x.key = k ∧ x.expire = e1 := by
  unfold lookupExpire at h
  cases hf : c.ll.find? (fun y => y.key = k) with
  | none => rw [hf] at h; simp at h
  | some x =>
    rw [hf] at h
    simp at h
    refine ⟨x, rfl, List.mem_of_find?_eq_some hf, ?_, h⟩
    have := List.find?_some hf
    simpa using this

/-- A single `Add` never lowers the stored expiration of any key that is
present before and after it. -/
theorem lruAdd_expireMono (c : LRUCache) (key : String) (value : List Nat)
    (ttl jitter now : Int) (c2 : LRUCache) (k : String) (e1 e2 : Int)
    (hnd : c.KeysNodup)
    (hadd : c.add key value ttl jitter now = some c2)
    (h1 : lookupExpire c k = some e1) (h2 : lookupExpire c2 k = some e2) :
    e1 ≤ e2 := by
  obtain ⟨x1, hf1, hm1, hk1, he1⟩ := lookupExpire_some h1
  obtain ⟨x2, hf2, hm2, hk2, he2⟩ := lookupExpire_some h2
  unfold LRUCache.add at hadd
  have hsub := evictLoop_sublist_aux (c.addEntry key value ttl jitter now).ll.length
    _ now c2 (Nat.le_refl _) hadd
  have hm2x : x2 ∈ (c.addEntry key value ttl jitter now).ll := hsub.subset hm2
  cases hrk : removeKey c.ll key with
  | some p =>
    obtain ⟨e, rest⟩ := p
    simp only [LRUCache.addEntry, hrk] at hm2x
    by_cases hkk : k = key
    · have hecl : e ∈ c.ll := (removeKey_perm hrk).symm.subset (List.mem_cons_self e rest)
      have hint : c.ll.find? (fun y => y.key = k) = some e :=
        find?_key_eq_some hnd hecl (by rw [removeKey_key hrk, hkk])
      have hx1e : x1 = e := by
        rw [hf1] at hint
        exact (Option.some.injEq _ _).mp hint
      rcases List.mem_cons.mp hm2x with rfl | hrest
      · rw [← he2, ← he1, hx1e]
        simp only
        split <;> omega
      · exact absurd (by rw [hk2, hkk] : x2.key = key)
          (removeKey_not_mem hrk hnd x2 hrest)
    · rcases List.mem_cons.mp hm2x with rfl | hrest
      · exact absurd hk2 (by simpa using fun hc => hkk hc.symm)
      · have hx2c : x2 ∈ c.ll := (removeKey_sublist hrk).subset hrest
        have hint : c.ll.find? (fun y => y.key = k) = some x2 :=
          find?_key_eq_some hnd hx2c hk2
        have hx12 : x1 = x2 := by
          rw [hf1] at hint
          exact (Option.some.injEq _ _).mp hint
        rw [← he1, ← he2, hx12]
  | none =>
    simp only [LRUCache.addEntry, hrk] at hm2x
    by_cases hkk : k = key
    · exact absurd (by rw [hk1, hkk] : x1.key = key) (removeKey_none hrk x1 hm1)
    · rcases List.mem_cons.mp hm2x with rfl | hrest
      · exact absurd hk2 (by simpa using fun hc => hkk hc.symm)
      · have hint : c.ll.find? (fun y => y.key = k) = some x2 :=
          find?_key_eq_some hnd hrest hk2
        have hx12 : x1 = x2 := by
          rw [hf1] at hint
          exact (Option.some.injEq _ _).mp hint
        rw [← he1, ← he2, hx12]

theorem runAdds_expireMono :
    ∀ (ops : List AddOp) (c c2 : LRUCache) (k : String) (e1 e2 : Int),
      c.KeysNodup → runAdds c ops = some c2 → presentThroughout c ops k →
      lookupExpire c k = some e1 → lookupExpire c2 k = some e2 → e1 ≤ e2 := by
  intro ops
  induction ops with
  | nil =>
    intro c c2 k e1 e2 hnd hrun hpt h1 h2
    simp only [runAdds, Option.some.injEq] at hrun
    subst hrun
    rw [h1] at h2
    simp at h2
    omega
  | cons op ops ih =>
    intro c c2 k e1 e2 hnd hrun hpt h1 h2
    simp only [runAdds] at hrun
    unfold presentThroughout at hpt
    cases hadd : c.add op.key op.value op.ttl op.jitter op.now with
    | none =>
      rw [hadd] at hrun
      exact absurd hrun (by simp)
    | some cmid =>
      rw [hadd] at hrun hpt
      obtain ⟨hmid, hpt2⟩ := hpt
      obtain ⟨emid, hemid⟩ := Option.isSome_iff_exists.mp hmid
      have hstep := lruAdd_expireMono c op.key op.value op.ttl op.jitter op.now
        cmid k e1 emid hnd hadd h1 hemid
      have hndmid := lruAdd_nodup c op.key op.value op.ttl op.jitter op.now
        cmid hnd hadd
      exact le_trans hstep (ih cmid c2 k emid e2 hndmid hrun hpt2 hemid h2)

/-! ## Frequency-container loop safety -/

theorem popMin_perm {l : List FEntry} {e : FEntry} {rest : List FEntry}
    (h : popMin l = some (e, rest)) : l.Perm (e :: rest) := by
  induction l generalizing e rest with
  | nil => simp [popMin] at h
  | cons a tl ih =>
    cases htl : popMin tl with
    | none =>
      have : tl = [] := popMin_none htl
      subst this
      simp only [popMin, Option.some.injEq, Prod.mk.injEq] at h
      obtain ⟨rfl, rfl⟩ := h
      exact List.Perm.refl _
    | some p =>
      obtain ⟨f, rest2⟩ := p
      simp only [popMin, htl] at h
      split at h
      · simp only [Option.some.injEq, Prod.mk.injEq] at h
        obtain ⟨rfl, rfl⟩ := h
        exact List.Perm.refl _
      · simp only [Option.some.injEq, Prod.mk.injEq] at h
        obtain ⟨rfl, rfl⟩ := h
        exact ((ih htl).cons a).trans (List.Perm.swap _ _ _)

/-- The LFU eviction loop never pops an empty heap as long as the byte
counter does not overshoot `maxBytes` by more than the bytes actually
stored in the heap. -/
theorem fevictLoop_isSome_aux :
    ∀ (n : Nat) (c : LFUCache),
      c.heap.length ≤ n → 0 ≤ c.maxBytes →
      c.nBytes ≤ c.maxBytes + fsumBytes c.heap →
      (fevictLoop c).isSome := by
  intro n
  induction n with
  | zero =>
    intro c hlen hmax hbound
    have hnil : c.heap = [] := List.length_eq_zero.mp (Nat.le_zero.mp hlen)
    rw [fevictLoop]
    split
    · rename_i hcond
      rw [hnil, fsumBytes] at hbound
      simp at hbound
      obtain ⟨h1, h2⟩ := hcond
      omega
    · simp
  | succ n ih =>
    intro c hlen hmax hbound
    rw [fevictLoop]
    split
    · rename_i hcond
      split
      · rename_i e rest hpop
        have hlen2 := popMin_length hpop
        have hsum : fsumBytes c.heap = e.size + fsumBytes rest := by
          rw [fsumBytes_perm (popMin_perm hpop), fsumBytes_cons]
        apply ih { c with heap := rest, nBytes := c.nBytes - e.size }
        · simp; omega
        · exact hmax
        · simp only
          omega
      · rename_i hpop
        have hnil : c.heap = [] := popMin_none hpop
        rw [hnil, fsumBytes] at hbound
        simp at hbound
        obtain ⟨h1, h2⟩ := hcond
        omega
    · simp

/-! ## Single-flight invariants -/

theorem updFn_same {α : Type} (f : Nat → α) (t : Nat) (v : α) :
    updFn f t v t = v := by simp [updFn]

theorem updFn_other {α : Type} (f : Nat → α) (t : Nat) (v : α) (x : Nat)
    (h : x ≠ t) : updFn f t v x = f x := by simp [updFn, h]

theorem sfInv_init : SFInv SFState.init := by
  refine ⟨?_, ?_, ?_⟩
  · intro t c how
    rcases how with h | h <;> simp [SFState.init] at h
  · intro t1 t2 c1 c2 h1 h2
    rcases h1 with h | h <;> simp [SFState.init] at h
  · intro t c h
    simp [SFState.init] at h

theorem updFn_pc_eq {f : Nat → SFPc} {t0 t : Nat} {v w : SFPc}
    (h : updFn f t0 v t = w) : (t = t0 ∧ v = w) ∨ (t ≠ t0 ∧ f t = w) := by
  by_cases ht : t = t0
  · subst ht
    rw [updFn_same] at h
    exact Or.inl ⟨rfl, h⟩
  · rw [updFn_other _ _ _ _ ht] at h
    exact Or.inr ⟨ht, h⟩

/-- An owner in a state whose `pc` was updated at `t0` is either `t0`
itself (owning via the new program counter) or an owner of the base
state. -/
theorem sfOwner_updFn {s : SFState} {s2 : SFState} {t0 : Nat} {v : SFPc}
    (hpc : s2.pc = updFn s.pc t0 v) {t c : Nat} (h : SFOwner s2 t c) :
    (t = t0 ∧ (v = SFPc.running c ∨ v = SFPc.afterFn c)) ∨
    (t ≠ t0 ∧ SFOwner s t c) := by
  rcases h with h | h <;> rw [hpc] at h
  · rcases updFn_pc_eq h with ⟨ht, hv⟩ | ⟨ht, hf⟩
    · exact Or.inl ⟨ht, Or.inl hv⟩
    · exact Or.inr ⟨ht, Or.inl hf⟩
  · rcases updFn_pc_eq h with ⟨ht, hv⟩ | ⟨ht, hf⟩
    · exact Or.inl ⟨ht, Or.inr hv⟩
    · exact Or.inr ⟨ht, Or.inr hf⟩

theorem sfInv_step {s s2 : SFState} (hinv : SFInv s) (hstep : SFStep s s2) :
    SFInv s2 := by
  obtain ⟨inv1, inv2, inv3⟩ := hinv
  cases hstep with
  | startLeader t0 hpc hreg =>
    have hnoown : ∀ t c, ¬ SFOwner s t c := by
      intro t c how
      have := inv1 t c how
      rw [hreg] at this
      exact absurd this (by simp)
    refine ⟨?_, ?_, ?_⟩
    · intro t c how
      rcases sfOwner_updFn rfl how with ⟨ht, hv⟩ | ⟨ht, hs⟩
      · rcases hv with hv | hv
        · simp only [SFPc.running.injEq] at hv
          subst hv
          rfl
        · exact absurd hv (by simp)
      · exact absurd hs (hnoown t c)
    · intro t1 t2 c1 c2 h1 h2
      rcases sfOwner_updFn rfl h1 with ⟨ht1, _⟩ | ⟨_, hs1⟩
      · rcases sfOwner_updFn rfl h2 with ⟨ht2, _⟩ | ⟨_, hs2⟩
        · rw [ht1, ht2]
        · exact absurd hs2 (hnoown t2 c2)
      · exact absurd hs1 (hnoown t1 c1)
    · intro t c h
      rcases updFn_pc_eq (show updFn s.pc t0 (SFPc.running s.nextC) t = SFPc.afterFn c from h) with ⟨ht, hv⟩ | ⟨ht, hf⟩
      · exact absurd hv (by simp)
      · exact absurd (Or.inr hf) (hnoown t c)
  | startFollower t0 c0 hpc hreg =>
    refine ⟨?_, ?_, ?_⟩
    · intro t c how
      rcases sfOwner_updFn rfl how with ⟨ht, hv⟩ | ⟨ht, hs⟩
      · rcases hv with hv | hv <;> exact absurd hv (by simp)
      · exact inv1 t c hs
    · intro t1 t2 c1 c2 h1 h2
      rcases sfOwner_updFn rfl h1 with ⟨ht1, hv1⟩ | ⟨_, hs1⟩
      · rcases hv1 with hv | hv <;> exact absurd hv (by simp)
      · rcases sfOwner_updFn rfl h2 with ⟨ht2, hv2⟩ | ⟨_, hs2⟩
        · rcases hv2 with hv | hv <;> exact absurd hv (by simp)
        · exact inv2 t1 t2 c1 c2 hs1 hs2
    · intro t c h
      rcases updFn_pc_eq (show updFn s.pc t0 (SFPc.waiting c0) t = SFPc.afterFn c from h) with ⟨ht, hv⟩ | ⟨ht, hf⟩
      · exact absurd hv (by simp)
      · exact inv3 t c hf
  | finishFn t0 c0 v hpc =>
    refine ⟨?_, ?_, ?_⟩
    · intro t c how
      rcases sfOwner_updFn rfl how with ⟨ht, hv⟩ | ⟨ht, hs⟩
      · rcases hv with hv | hv
        · exact absurd hv (by simp)
        · simp only [SFPc.afterFn.injEq] at hv
          rw [← hv]
          exact inv1 t0 c0 (Or.inl hpc)
      · exact inv1 t c hs
    · intro t1 t2 c1 c2 h1 h2
      have hs1 : ∃ d, SFOwner s t1 d := by
        rcases sfOwner_updFn rfl h1 with ⟨ht, _⟩ | ⟨_, hs⟩
        · exact ⟨c0, by rw [ht]; exact Or.inl hpc⟩
        · exact ⟨c1, hs⟩
      have hs2 : ∃ d, SFOwner s t2 d := by
        rcases sfOwner_updFn rfl h2 with ⟨ht, _⟩ | ⟨_, hs⟩
        · exact ⟨c0, by rw [ht]; exact Or.inl hpc⟩
        · exact ⟨c2, hs⟩
      obtain ⟨d1, hd1⟩ := hs1
      obtain ⟨d2, hd2⟩ := hs2
      exact inv2 t1 t2 d1 d2 hd1 hd2
    · intro t c h
      rcases updFn_pc_eq (show updFn s.pc t0 (SFPc.afterFn c0) t = SFPc.afterFn c from h) with ⟨ht, hv⟩ | ⟨ht, hf⟩
      · simp only [SFPc.afterFn.injEq] at hv
        subst hv
        simp [updFn_same]
      · have := inv3 t c hf
        by_cases hc : c = c0
        · subst hc
          simp [updFn_same]
        · show updFn s.callDone c0 true c = true
          rw [updFn_other _ _ _ _ hc]
          exact this
  | deleteKey t0 c0 hpc =>
    have honly : ∀ t c, SFOwner s t c → t = t0 := by
      intro t c how
      exact inv2 t t0 c c0 how (Or.inr hpc)
    refine ⟨?_, ?_, ?_⟩
    · intro t c how
      exfalso
      rcases sfOwner_updFn rfl how with ⟨ht, hv⟩ | ⟨ht, hs⟩
      · rcases hv with hv | hv <;> exact absurd hv (by simp)
      · exact ht (honly t c hs)
    · intro t1 t2 c1 c2 h1 h2
      exfalso
      rcases sfOwner_updFn rfl h1 with ⟨ht, hv⟩ | ⟨ht, hs⟩
      · rcases hv with hv | hv <;> exact absurd hv (by simp)
      · exact ht (honly t1 c1 hs)
    · intro t c h
      rcases updFn_pc_eq (show updFn s.pc t0 (SFPc.finished (s.callVal c0)) t = SFPc.afterFn c from h) with ⟨ht, hv⟩ | ⟨ht, hf⟩
      · exact absurd hv (by simp)
      · exact inv3 t c hf
  | finishWait t0 c0 hpc hdone =>
    refine ⟨?_, ?_, ?_⟩
    · intro t c how
      rcases sfOwner_updFn rfl how with ⟨ht, hv⟩ | ⟨ht, hs⟩
      · rcases hv with hv | hv <;> exact absurd hv (by simp)
      · exact inv1 t c hs
    · intro t1 t2 c1 c2 h1 h2
      rcases sfOwner_updFn rfl h1 with ⟨ht1, hv1⟩ | ⟨_, hs1⟩
      · rcases hv1 with hv | hv <;> exact absurd hv (by simp)
      · rcases sfOwner_updFn rfl h2 with ⟨ht2, hv2⟩ | ⟨_, hs2⟩
        · rcases hv2 with hv | hv <;> exact absurd hv (by simp)
        · exact inv2 t1 t2 c1 c2 hs1 hs2
    · intro t c h
      rcases updFn_pc_eq (show updFn s.pc t0 (SFPc.finished (s.callVal c0)) t = SFPc.afterFn c from h) with ⟨ht, hv⟩ | ⟨ht, hf⟩
      · exact absurd hv (by simp)
      · exact inv3 t c hf

theorem sfReach_inv {s : SFState} (h : SFReach s) : SFInv s := by
  induction h with
  | init => exact sfInv_init
  | step hr hs ih => exact sfInv_step ih hs

/-! ## Wire-format round trip -/

theorem decodeVarint_encode (n : Nat) :
    ∀ rest : List Nat, decodeVarint (encodeVarint n ++ rest) = some (n, rest) := by
  induction n using Nat.strong_induction_on with
  | _ n ih =>
    intro rest
    rw [encodeVarint]
    split
    · rename_i h
      simp [decodeVarint, h]
    · rename_i h
      have hdiv : n / 128 < n := Nat.div_lt_self (by omega) (by omega)
      simp only [List.cons_append, decodeVarint]
      have hb : ¬ (n % 128 + 128 < 128) := by omega
      rw [if_neg hb]
      simp only [List.append_eq]
      rw [ih (n / 128) hdiv rest]
      show some (n / 128 * 128 + (n % 128 + 128 - 128), rest) = some (n, rest)
      have hmod : n / 128 * 128 + (n % 128 + 128 - 128) = n := by omega
      rw [hmod]

theorem parseResponseFields_nil (fuel : Nat) (acc : List Nat) :
    parseResponseFields fuel [] acc = some acc := by
  cases fuel <;> rfl

/-- Decode after encode recovers the exact value bytes. -/
theorem unmarshal_marshal (v : List Nat) :
    unmarshalResponse (marshalResponse v) = some v := by
  by_cases hv : v = []
  · subst hv
    rfl
  · unfold marshalResponse unmarshalResponse
    rw [if_neg hv]
    have hlen : (10 :: (encodeVarint v.length ++ v)).length + 1 =
        (encodeVarint v.length ++ v).length + 1 + 1 := by simp
    rw [hlen]
    rw [parseResponseFields]
    have h10 : decodeVarint (10 :: (encodeVarint v.length ++ v)) =
        some (10, encodeVarint v.length ++ v) := by
      simp [decodeVarint]
    rw [h10]
    simp only [if_pos rfl, decodeVarint_encode v.length v, reduceIte]
    rw [if_pos (Nat.le_refl v.length)]
    rw [List.drop_length, List.take_length]
    exact parseResponseFields_nil _ v
    simp

/-! ## The claims -/

/-- C1: the byte-counter invariant `nBytes = Σ (len key + len value)`
fails in the frequency container: replaying the repository's own lfu
`TestAdd` (insert `"key" ↦ "1"`, then `Add` the replacement `"111"`, with
`maxBytes = 0`) leaves `nBytes = 4` — the `Add`-replace branch of
`LFUCache.Add` never applies the value-length difference — while the
entries in the map weigh `6` bytes (and the test demands
`nBytes == len("key")+len("111") == 6`).  `49` is the byte `'1'`. -/
theorem claim_C1 :
    (LFUCache.add ⟨0, 0, []⟩ "key" [49] 60 0).bind
      (fun c => c.add "key" [49, 49, 49] 60 0) =
      some ⟨0, 4, [⟨"key", [49, 49, 49], 2, 60⟩]⟩ ∧
    fsumBytes [⟨"key", [49, 49, 49], 2, 60⟩] = 6 := by
  constructor
  · rw [LFUCache.add, LFUCache.addEntry]
    norm_num [fremoveKey, show "key".length = 3 from rfl]
    rw [fevictLoop]
    norm_num
    rw [LFUCache.add, LFUCache.addEntry]
    norm_num [fremoveKey]
    rw [fevictLoop]
    norm_num
  · decide

/-- C2 (counterexample): `Add` on the recency container need not
terminate.  On an empty cache with `maxBytes = 1`, adding the unexpired
4-byte entry `"ab" ↦ [99, 100]` leaves `nBytes = 4 > 1` with no expired
entry, so `RemoveOldest` is a no-op and the eviction loop spins forever
(modelled as `none`). -/
theorem claim_C2_counterexample :
    LRUCache.add ⟨1, 0, []⟩ "ab" [99, 100] 100 0 0 = none := by
  simp [LRUCache.add, LRUCache.addEntry, removeKey, evictLoop, removeBackExpired]
  decide

/-- C2 (amended): when no entry of the post-insert state is expired,
`Add` terminates exactly when the eviction loop has nothing to do —
`maxBytes = 0` (unbounded) or the post-insert `nBytes` is within budget;
over budget with nothing expired, the loop (and hence `Add`) never
returns.  Forward progress of the eviction loop therefore depends on the
presence of expired entries, as §9 of the spec warns. -/
theorem claim_C2 (c : LRUCache) (key : String) (value : List Nat)
    (ttl jitter now : Int)
    (h : ∀ e ∈ (c.addEntry key value ttl jitter now).ll, now ≤ e.expire) :
    (c.add key value ttl jitter now).isSome ↔
      (c.maxBytes = 0 ∨ (c.addEntry key value ttl jitter now).nBytes ≤ c.maxBytes) := by
  have hmb : (c.addEntry key value ttl jitter now).maxBytes = c.maxBytes := by
    unfold LRUCache.addEntry
    cases hrk : removeKey c.ll key with
    | none => simp [hrk]
    | some p =>
      obtain ⟨e, rest⟩ := p
      simp [hrk]
  have hiff := evictLoop_noExpired (c.addEntry key value ttl jitter now) now
    (fun e he => by have := h e he; omega)
  rw [hmb] at hiff
  exact hiff

theorem claim_C2_witness :
    (∀ e ∈ ((⟨0, 0, []⟩ : LRUCache).addEntry "a" [5] 10 0 0).ll, (0:Int) ≤ e.expire) ∧
    (((⟨0, 0, []⟩ : LRUCache).add "a" [5] 10 0 0).isSome ↔
      ((0:Int) = 0 ∨ ((⟨0, 0, []⟩ : LRUCache).addEntry "a" [5] 10 0 0).nBytes ≤ 0)) :=
  ⟨by decide, claim_C2 ⟨0, 0, []⟩ "a" [5] 10 0 0 (by decide)⟩

/-- C3: `Group.Get("")` fails with the invalid-argument error without
touching either cache or the loader; for a non-empty key the hot-cache
is probed first, on miss the main-cache, and only when both miss is
`load` invoked — a hot- or main-cache hit never reaches the loader or a
peer. -/
theorem claim_C3 :
    (∀ g : GroupModel, g.getTraced "" = (Except.error "key is required", [])) ∧
    (∀ (g : GroupModel) (key : String) (v : List Nat), key ≠ "" →
      g.hotGet key = some v →
      g.getTraced key = (Except.ok v, [GroupEvent.hotProbe])) ∧
    (∀ (g : GroupModel) (key : String) (v : List Nat), key ≠ "" →
      g.hotGet key = none → g.mainGet key = some v →
      g.getTraced key = (Except.ok v, [GroupEvent.hotProbe, GroupEvent.mainProbe])) ∧
    (∀ (g : GroupModel) (key : String), key ≠ "" →
      g.hotGet key = none → g.mainGet key = none →
      g.getTraced key =
        (g.loadFn key,
         [GroupEvent.hotProbe, GroupEvent.mainProbe, GroupEvent.loadCall])) := by
  refine ⟨?_, ?_, ?_, ?_⟩
  · intro g
    simp [GroupModel.getTraced]
  · intro g key v hk hhot
    simp [GroupModel.getTraced, hk, hhot]
  · intro g key v hk hhot hmain
    simp [GroupModel.getTraced, hk, hhot, hmain]
  · intro g key hk hhot hmain
    simp [GroupModel.getTraced, hk, hhot, hmain]

theorem claim_C3_witness :
    gWitness.getTraced "" = (Except.error "key is required", []) ∧
    gWitness.getTraced "hot" = (Except.ok [1], [GroupEvent.hotProbe]) ∧
    gWitness.getTraced "main" =
      (Except.ok [2], [GroupEvent.hotProbe, GroupEvent.mainProbe]) ∧
    gWitness.getTraced "miss" =
      (Except.ok [3],
       [GroupEvent.hotProbe, GroupEvent.mainProbe, GroupEvent.loadCall]) :=
  ⟨claim_C3.1 gWitness,
   claim_C3.2.1 gWitness "hot" [1] (by decide) rfl,
   claim_C3.2.2.1 gWitness "main" [2] (by decide) rfl rfl,
   claim_C3.2.2.2 gWitness "miss" (by decide) rfl rfl⟩

/-- C4: on a successful remote fetch, a key with no `KeyStats` gets a
fresh record `{firstRemoteGetAt := now, remoteCount := 1}` and no
hot-cache install; a key with existing stats has its counter
incremented and `qps = cnt / max(1, round((now − first)/60))` computed —
below 10 only the counter is updated, at or above 10 the fetched bytes
are installed into the hot-cache and the stats entry is deleted. -/
theorem claim_C4 :
    (∀ (st : PeerStatsState) (key : String) (bytes : List Nat) (now : Int),
      lookupKS st.keys key = none →
      getFromPeer st key (Except.ok bytes) now =
        (Except.ok bytes,
         { st with keys := (key, { firstGetTime := now, remoteCnt := 1 }) :: st.keys })) ∧
    (∀ (st : PeerStatsState) (key : String) (bytes : List Nat) (now : Int)
       (stat : KeyStats),
      lookupKS st.keys key = some stat →
      Int.tdiv (stat.remoteCnt + 1) (max 1 (roundDiv60 (now - stat.firstGetTime))) <
        maxMinuteRemoteQPS →
      getFromPeer st key (Except.ok bytes) now =
        (Except.ok bytes,
         { st with
           keys := updateKS st.keys key { stat with remoteCnt := stat.remoteCnt + 1 } })) ∧
    (∀ (st : PeerStatsState) (key : String) (bytes : List Nat) (now : Int)
       (stat : KeyStats),
      lookupKS st.keys key = some stat →
      maxMinuteRemoteQPS ≤
        Int.tdiv (stat.remoteCnt + 1) (max 1 (roundDiv60 (now - stat.firstGetTime))) →
      getFromPeer st key (Except.ok bytes) now =
        (Except.ok bytes,
         { keys := eraseKS st.keys key,
           hotInstalls := (key, bytes) :: st.hotInstalls })) := by
  refine ⟨?_, ?_, ?_⟩
  · intro st key bytes now hlk
    simp [getFromPeer, hlk]
  · intro st key bytes now stat hlk hq
    simp [getFromPeer, hlk, not_le.mpr hq]
  · intro st key bytes now stat hlk hq
    simp [getFromPeer, hlk, hq]

theorem claim_C4_witness :
    getFromPeer ⟨[], []⟩ "k" (Except.ok [7]) 5 =
      (Except.ok [7], ⟨[("k", ⟨5, 1⟩)], []⟩) ∧
    getFromPeer ⟨[("k", ⟨0, 1⟩)], []⟩ "k" (Except.ok [7]) 0 =
      (Except.ok [7], ⟨[("k", ⟨0, 2⟩)], []⟩) ∧
    getFromPeer ⟨[("k", ⟨0, 9⟩)], []⟩ "k" (Except.ok [7]) 0 =
      (Except.ok [7], ⟨[], [("k", [7])]⟩) :=
  ⟨claim_C4.1 ⟨[], []⟩ "k" [7] 5 rfl,
   claim_C4.2.1 ⟨[("k", ⟨0, 1⟩)], []⟩ "k" [7] 0 ⟨0, 1⟩ rfl (by decide),
   claim_C4.2.2 ⟨[("k", ⟨0, 9⟩)], []⟩ "k" [7] 0 ⟨0, 9⟩ rfl (by decide)⟩

theorem sfS1_reach : SFReach sfS1 :=
  SFReach.step SFReach.init (SFStep.startLeader SFState.init 0 rfl rfl)

theorem sfS2_reach : SFReach sfS2 :=
  SFReach.step sfS1_reach (SFStep.finishFn sfS1 0 0 7 rfl)

theorem sfS3_reach : SFReach sfS3 :=
  SFReach.step sfS2_reach (SFStep.startFollower sfS2 1 0 rfl rfl)

theorem sfS4_reach : SFReach sfS4 :=
  SFReach.step sfS3_reach (SFStep.finishWait sfS3 1 0 rfl rfl)

/-- C5: in the single-flight group, (i) at most one thread is executing
`fn` for the key in any reachable state; (ii) the key is only ever
deleted from the call table after the registered call's `fn` has
completed and released the latch; (iii) a follower that was waiting on a
registered call returns exactly that call's recorded result, and only
once the latch was released — so a subsequent `Do` after the deletion
starts a fresh execution. -/
theorem claim_C5 :
    (∀ s : SFState, SFReach s → ∀ t1 t2 c1 c2,
      s.pc t1 = SFPc.running c1 → s.pc t2 = SFPc.running c2 → t1 = t2) ∧
    (∀ s s2 : SFState, SFReach s → SFStep s s2 → ∀ c,
      s.reg = some c → s2.reg = none → s.callDone c = true) ∧
    (∀ s s2 : SFState, SFReach s → SFStep s s2 → ∀ t c v,
      s.pc t = SFPc.waiting c → s2.pc t = SFPc.finished v →
      v = s.callVal c ∧ s.callDone c = true) := by
  refine ⟨?_, ?_, ?_⟩
  · intro s hreach t1 t2 c1 c2 h1 h2
    obtain ⟨inv1, inv2, inv3⟩ := sfReach_inv hreach
    exact inv2 t1 t2 c1 c2 (Or.inl h1) (Or.inl h2)
  · intro s s2 hreach hstep c hsome hnone
    obtain ⟨inv1, inv2, inv3⟩ := sfReach_inv hreach
    cases hstep with
    | startLeader t0 hpc hreg => exact absurd hnone (by simp)
    | startFollower t0 c0 hpc hreg =>
      rw [hsome] at hnone
      exact absurd hnone (by simp)
    | finishFn t0 c0 v hpc =>
      rw [hsome] at hnone
      exact absurd hnone (by simp)
    | deleteKey t0 c0 hpc =>
      have hr0 : s.reg = some c0 := inv1 t0 c0 (Or.inr hpc)
      rw [hsome] at hr0
      simp only [Option.some.injEq] at hr0
      rw [← hr0] at hpc
      exact inv3 t0 c hpc
    | finishWait t0 c0 hpc hdone =>
      rw [hsome] at hnone
      exact absurd hnone (by simp)
  · intro s s2 hreach hstep t c v h1 h2
    cases hstep with
    | startLeader t0 hpc hreg =>
      rcases updFn_pc_eq h2 with ⟨ht, hv⟩ | ⟨ht, hf⟩
      · exact absurd hv (by simp)
      · rw [h1] at hf
        exact absurd hf (by simp)
    | startFollower t0 c0 hpc hreg =>
      rcases updFn_pc_eq h2 with ⟨ht, hv⟩ | ⟨ht, hf⟩
      · exact absurd hv (by simp)
      · rw [h1] at hf
        exact absurd hf (by simp)
    | finishFn t0 c0 v0 hpc =>
      rcases updFn_pc_eq h2 with ⟨ht, hv⟩ | ⟨ht, hf⟩
      · exact absurd hv (by simp)
      · rw [h1] at hf
        exact absurd hf (by simp)
    | deleteKey t0 c0 hpc =>
      rcases updFn_pc_eq h2 with ⟨ht, hv⟩ | ⟨ht, hf⟩
      · rw [ht] at h1
        rw [h1] at hpc
        exact absurd hpc (by simp)
      · rw [h1] at hf
        exact absurd hf (by simp)
    | finishWait t0 c0 hpc hdone =>
      rcases updFn_pc_eq h2 with ⟨ht, hv⟩ | ⟨ht, hf⟩
      · rw [ht] at h1
        rw [h1] at hpc
        simp only [SFPc.waiting.injEq] at hpc
        simp only [SFPc.finished.injEq] at hv
        subst hpc
        exact ⟨hv.symm, hdone⟩
      · rw [h1] at hf
        exact absurd hf (by simp)

theorem claim_C5_witness :
    (0 : Nat) = 0 ∧ sfS4.callDone 0 = true ∧
    (7 = sfS3.callVal 0 ∧ sfS3.callDone 0 = true) :=
  ⟨claim_C5.1 sfS1 sfS1_reach 0 0 0 0 rfl rfl,
   claim_C5.2.1 sfS4 sfS5 sfS4_reach (SFStep.deleteKey sfS4 0 0 rfl) 0 rfl rfl,
   claim_C5.2.2 sfS3 sfS4 sfS3_reach (SFStep.finishWait sfS3 1 0 rfl rfl) 1 0 7 rfl rfl⟩

/-- C6: when the load picks a remote peer and the remote fetch fails,
the failure is logged and the same `load` call falls back to the local
loader; the remote error itself is never the returned error — on local
success the local value is returned, and on local failure the local
loader's error propagates. -/
theorem claim_C6 :
    (∀ (env : LoadEnv) (e : String), env.hasPeers = true → env.pickOk = true →
      env.remoteResult = Except.error e →
      loadBody env = (env.localResult,
        [LoadEvent.remoteFetch, LoadEvent.remoteErrorLogged e, LoadEvent.localLoad])) ∧
    (∀ (env : LoadEnv) (e : String) (v : List Nat), env.hasPeers = true →
      env.pickOk = true → env.remoteResult = Except.error e →
      env.localResult = Except.ok v → (loadBody env).1 = Except.ok v) ∧
    (∀ (env : LoadEnv) (e el : String), env.hasPeers = true → env.pickOk = true →
      env.remoteResult = Except.error e → env.localResult = Except.error el →
      (loadBody env).1 = Except.error el) := by
  refine ⟨?_, ?_, ?_⟩
  · intro env e hp hpk hr
    simp [loadBody, hp, hpk, hr]
  · intro env e v hp hpk hr hl
    simp [loadBody, hp, hpk, hr, hl]
  · intro env e el hp hpk hr hl
    simp [loadBody, hp, hpk, hr, hl]

theorem claim_C6_witness :
    loadBody ⟨true, true, Except.error "boom", Except.ok [9]⟩ =
      (Except.ok [9],
       [LoadEvent.remoteFetch, LoadEvent.remoteErrorLogged "boom",
        LoadEvent.localLoad]) ∧
    (loadBody ⟨true, true, Except.error "boom", Except.error "local"⟩).1 =
      Except.error "local" :=
  ⟨claim_C6.1 ⟨true, true, Except.error "boom", Except.ok [9]⟩ "boom" rfl rfl rfl,
   claim_C6.2.2 ⟨true, true, Except.error "boom", Except.error "local"⟩
     "boom" "local" rfl rfl rfl rfl⟩

/-- C7: in the recency container, an `Add` on an existing key never
moves that key's stored expiration earlier (the candidate replaces the
stored instant only when strictly greater), and consequently over any
sequence of `Add` calls during which the entry stays alive its
expiration is non-decreasing. -/
theorem claim_C7 :
    (∀ (c : LRUCache) (key : String) (value : List Nat) (ttl jitter now : Int)
       (c2 : LRUCache) (k : String) (e1 e2 : Int),
      c.KeysNodup → c.add key value ttl jitter now = some c2 →
      lookupExpire c k = some e1 → lookupExpire c2 k = some e2 → e1 ≤ e2) ∧
    (∀ (ops : List AddOp) (c c2 : LRUCache) (k : String) (e1 e2 : Int),
      c.KeysNodup → runAdds c ops = some c2 → presentThroughout c ops k →
      lookupExpire c k = some e1 → lookupExpire c2 k = some e2 → e1 ≤ e2) :=
  ⟨fun c key value ttl jitter now c2 k e1 e2 hnd hadd h1 h2 =>
    lruAdd_expireMono c key value ttl jitter now c2 k e1 e2 hnd hadd h1 h2,
   fun ops c c2 k e1 e2 hnd hrun hpt h1 h2 =>
    runAdds_expireMono ops c c2 k e1 e2 hnd hrun hpt h1 h2⟩

theorem claim_C7_witness :
    (⟨0, 4, [⟨"k", [1, 2, 3], 100⟩]⟩ : LRUCache).KeysNodup ∧
    (⟨0, 4, [⟨"k", [1, 2, 3], 100⟩]⟩ : LRUCache).add "k" [9] (-200) 0 10 =
      some ⟨0, 2, [⟨"k", [9], 100⟩]⟩ ∧
    (100 : Int) ≤ 100 ∧
    presentThroughout ⟨0, 4, [⟨"k", [1, 2, 3], 100⟩]⟩
      [⟨"k", [9], -200, 0, 10⟩] "k" ∧
    runAdds ⟨0, 4, [⟨"k", [1, 2, 3], 100⟩]⟩ [⟨"k", [9], -200, 0, 10⟩] =
      some ⟨0, 2, [⟨"k", [9], 100⟩]⟩ ∧
    (100 : Int) ≤ 100 := by
  have hadd : (⟨0, 4, [⟨"k", [1, 2, 3], 100⟩]⟩ : LRUCache).add "k" [9] (-200) 0 10 =
      some ⟨0, 2, [⟨"k", [9], 100⟩]⟩ := by
    rw [LRUCache.add, LRUCache.addEntry]
    simp only [removeKey, reduceIte]
    rw [evictLoop]
    simp
  have hpt : presentThroughout ⟨0, 4, [⟨"k", [1, 2, 3], 100⟩]⟩
      [⟨"k", [9], -200, 0, 10⟩] "k" := by
    unfold presentThroughout
    rw [hadd]
    exact ⟨by decide, trivial⟩
  have hrun : runAdds ⟨0, 4, [⟨"k", [1, 2, 3], 100⟩]⟩ [⟨"k", [9], -200, 0, 10⟩] =
      some ⟨0, 2, [⟨"k", [9], 100⟩]⟩ := by
    simp only [runAdds, hadd]
  have hnd : (⟨0, 4, [⟨"k", [1, 2, 3], 100⟩]⟩ : LRUCache).KeysNodup := by
    unfold LRUCache.KeysNodup
    decide
  refine ⟨hnd, hadd, ?_, hpt, hrun, ?_⟩
  · exact claim_C7.1 ⟨0, 4, [⟨"k", [1, 2, 3], 100⟩]⟩ "k" [9] (-200) 0 10
      ⟨0, 2, [⟨"k", [9], 100⟩]⟩ "k" 100 100 hnd hadd (by decide) (by decide)
  · exact claim_C7.2 [⟨"k", [9], -200, 0, 10⟩] ⟨0, 4, [⟨"k", [1, 2, 3], 100⟩]⟩
      ⟨0, 2, [⟨"k", [9], 100⟩]⟩ "k" 100 100 hnd hrun hpt (by decide) (by decide)

/-- C8: the ring scenario of the consistent-hash test — replica factor
3, identity (decimal) hash, peers "6", "4", "2" — maps "2"→"2",
"11"→"2", "23"→"4" and "27"→"2" (the last by wrap-around past the
largest virtual node 26); after adding peer "8" (virtual node 28),
"27"→"8"; and `Get` on an empty ring returns the empty string. -/
theorem claim_C8 :
    ((HashRing.new 3 atoiNat).add ["6", "4", "2"]).get "2" = "2" ∧
    ((HashRing.new 3 atoiNat).add ["6", "4", "2"]).get "11" = "2" ∧
    ((HashRing.new 3 atoiNat).add ["6", "4", "2"]).get "23" = "4" ∧
    ((HashRing.new 3 atoiNat).add ["6", "4", "2"]).get "27" = "2" ∧
    (((HashRing.new 3 atoiNat).add ["6", "4", "2"]).add ["8"]).get "27" = "8" ∧
    (∀ key : String, (HashRing.new 3 atoiNat).get key = "") := by
  exact ⟨by decide, by decide, by decide, by decide, by decide, fun key => rfl⟩

/-- C9: the server-side encoding composed with the client-side decoding
is the identity on the response value: for every cached `ByteView`, the
server marshals `Response{Value: v.ByteSlice()}` into the reply's
`value` field, and the client's unmarshal of that field recovers exactly
`v`'s bytes. -/
theorem claim_C9 (v : ByteView) : clientDecodedValue v = some v.b := by
  unfold clientDecodedValue serverReplyValue ByteView.byteSlice cloneBytes
  rw [List.map_id]
  exact unmarshal_marshal v.b

/-- C10 (counterexample): the claim's precondition "nBytes > 0 implies
the heap is non-empty" does not make the panic unreachable from `Add`:
this cache satisfies it (one live entry, `nBytes = 10`), yet `Add`
drains the two-entry heap while still over budget and the third loop
iteration pops the empty heap — the Go code panics (modelled `none`). -/
theorem claim_C10_counterexample :
    (⟨1, 10, [⟨"", [120], 1, 100⟩]⟩ : LFUCache).heap.length = 1 ∧
    (0 : Int) < (⟨1, 10, [⟨"", [120], 1, 100⟩]⟩ : LFUCache).nBytes ∧
    (⟨1, 10, [⟨"", [120], 1, 100⟩]⟩ : LFUCache).add "a" [] 0 0 = none := by
  refine ⟨rfl, by decide, ?_⟩
  simp [LFUCache.add, LFUCache.addEntry, fremoveKey, fevictLoop, popMin, FEntry.size]
  decide

/-- C10 (amended): `LFUCache.RemoveOldest` pops the heap minimum with no
emptiness guard, so on a cache with no entries it panics (`none`)
instead of being a no-op; the panic is unreachable from `Add` under the
§3 budget invariant — `0 ≤ maxBytes` and `nBytes ≤ maxBytes` whenever
`maxBytes ≠ 0` (the weaker precondition "nBytes > 0 implies the heap is
non-empty" is not sufficient, see the counterexample). -/
theorem claim_C10 :
    (∀ c : LFUCache, c.heap = [] → c.removeOldest = none) ∧
    (∀ (c : LFUCache) (key : String) (value : List Nat) (ttl now : Int),
      0 ≤ c.maxBytes → (c.maxBytes ≠ 0 → c.nBytes ≤ c.maxBytes) →
      (c.add key value ttl now).isSome) := by
  constructor
  · intro c hnil
    unfold LFUCache.removeOldest
    rw [hnil]
    rfl
  · intro c key value ttl now hmax hbud
    have hmaxeq : (c.addEntry key value ttl now).maxBytes = c.maxBytes := by
      unfold LFUCache.addEntry
      cases hrk : fremoveKey c.heap key with
      | none => simp [hrk]
      | some p =>
        obtain ⟨e, rest⟩ := p
        simp [hrk]
    unfold LFUCache.add
    by_cases hmb : c.maxBytes = 0
    · rw [fevictLoop]
      split
      · rename_i hcond
        exact absurd (hmaxeq.trans hmb) hcond.1
      · simp
    · have hb := hbud hmb
      apply fevictLoop_isSome_aux (c.addEntry key value ttl now).heap.length _
        (Nat.le_refl _)
      · rw [hmaxeq]
        exact hmax
      · unfold LFUCache.addEntry
        cases hrk : fremoveKey c.heap key with
        | some p =>
          obtain ⟨e, rest⟩ := p
          simp only [hrk]
          have hnn := fsumBytes_nonneg
            ({ key := key, value := value, freq := e.freq + 1,
               expire := now + ttl } :: rest)
          omega
        | none =>
          simp only [hrk, fsumBytes_cons, FEntry.size]
          have hnn := fsumBytes_nonneg c.heap
          omega

theorem claim_C10_witness :
    (⟨5, 0, []⟩ : LFUCache).removeOldest = none ∧
    ((⟨4, 0, []⟩ : LFUCache).add "k" [1] 60 0).isSome :=
  ⟨claim_C10.1 ⟨5, 0, []⟩ rfl,
   claim_C10.2 ⟨4, 0, []⟩ "k" [1] 60 0 (by decide) (by decide)⟩

end Geecache
